import Mathlib

/-!
# Verification of the FM incremental scorer and the structured Gaussian sampler

This file is a shallow embedding, over exact rational arithmetic, of the two
numerical cores of the repository:

* the Factorization Machine (FM) scorer with its incremental update scheme
  (`predict`, `calc_h_b`, `calc_h_w`, `calc_h_v`, `calc_g`, `calc_df`,
  `calc_q_init`, `calc_dq`, `calc_h_v_fast`), and
* the structured Gaussian sampler of Bhattacharya et al. 2016
  (`sample_gaussian_efficient`).

Arrays are embedded as functions out of `Fin`; the batch `x` of shape `D × N`
becomes `Fin D → Fin N → ℚ`, the factor matrix `v` of shape `N × K` becomes
`Fin N → Fin K → ℚ`.  Floating-point numbers are replaced by `ℚ`
("exact arithmetic").
-/

open Finset

namespace FM

variable {D N K : ℕ}

/-- Batch core of `FactorizationMachines.predict`: for each row `d`,
`bias + linear + inter` with
`linear = x[:, :] @ w[:]` and
`inter = 0.5 * np.sum((x @ v) ** 2 - (x ** 2) @ (v ** 2), axis=1)`. -/
def predict_batch (x : Fin D → Fin N → ℚ) (b : ℚ) (w : Fin N → ℚ)
    (v : Fin N → Fin K → ℚ) : Fin D → ℚ :=
  fun d =>
    b + (∑ i, x d i * w i) +
      (1 / 2) * ∑ k, ((∑ i, x d i * v i k) ^ 2 - ∑ i, (x d i) ^ 2 * (v i k) ^ 2)

/-- `calc_h_b(x) = np.ones(x.shape[0])`. -/
def calc_h_b (_x : Fin D → Fin N → ℚ) : Fin D → ℚ :=
  fun _ => 1

/-- `calc_h_w(x, i) = x[:, i]`. -/
def calc_h_w (x : Fin D → Fin N → ℚ) (i : Fin N) : Fin D → ℚ :=
  fun d => x d i

/-- `calc_h_v(x, v, i, k) = x[:, i] * (x @ v[:, k] - x[:, i] * v[i, k])`. -/
def calc_h_v (x : Fin D → Fin N → ℚ) (v : Fin N → Fin K → ℚ) (i : Fin N)
    (k : Fin K) : Fin D → ℚ :=
  fun d => x d i * ((∑ j, x d j * v j k) - x d i * v i k)

/-- `calc_g(f, h, p) = f - h * p`. -/
def calc_g (f h : Fin D → ℚ) (p : ℚ) : Fin D → ℚ :=
  fun d => f d - h d * p

/-- `calc_df(h, p_new, p_old) = (p_new - p_old) * h`. -/
def calc_df (h : Fin D → ℚ) (p_new p_old : ℚ) : Fin D → ℚ :=
  fun d => (p_new - p_old) * h d

/-- `calc_q_init(x, v) = x @ v`, shape `(D, K)`. -/
def calc_q_init (x : Fin D → Fin N → ℚ) (v : Fin N → Fin K → ℚ) :
    Fin D → Fin K → ℚ :=
  fun d k => ∑ j, x d j * v j k

/-- `calc_dq(x, v_ik_new, v, i, k) = (v_ik_new - v[i, k]) * x[:, i]`. -/
def calc_dq (x : Fin D → Fin N → ℚ) (v_ik_new : ℚ) (v : Fin N → Fin K → ℚ)
    (i : Fin N) (k : Fin K) : Fin D → ℚ :=
  fun d => (v_ik_new - v i k) * x d i

/-- `calc_h_v_fast(x, v, q, i, k) = x[:, i] * (q[:, k] - x[:, i] * v[i, k])`. -/
def calc_h_v_fast (x : Fin D → Fin N → ℚ) (v : Fin N → Fin K → ℚ)
    (q : Fin D → Fin K → ℚ) (i : Fin N) (k : Fin K) : Fin D → ℚ :=
  fun d => x d i * (q d k - x d i * v i k)

/-- Writing a single entry of the factor matrix: `v[i, k] = c`. -/
def updV (v : Fin N → Fin K → ℚ) (i : Fin N) (k : Fin K) (c : ℚ) :
    Fin N → Fin K → ℚ :=
  fun j l => if j = i ∧ l = k then c else v j l

/-- In-place column update `q[:, k] += dq` (the other columns are untouched). -/
def updQcol (q : Fin D → Fin K → ℚ) (k : Fin K) (dq : Fin D → ℚ) :
    Fin D → Fin K → ℚ :=
  fun d l => if l = k then q d l + dq d else q d l

/-! ### Single-parameter update lemmas -/

/-- Splitting the projection `x @ v[:, k]` after the entry `v[i, k]` is set to `c`. -/
lemma sum_mul_updV (x : Fin D → Fin N → ℚ) (v : Fin N → Fin K → ℚ)
    (i : Fin N) (k : Fin K) (c : ℚ) (d : Fin D) :
    (∑ j, x d j * updV v i k c j k) =
      (∑ j ∈ univ.erase i, x d j * v j k) + x d i * c := by
  rw [← Finset.sum_erase_add _ _ (mem_univ i)]
  congr 1
  · exact Finset.sum_congr rfl fun j hj => by
      simp [updV, Finset.ne_of_mem_erase hj]
  · simp [updV]

/-- Splitting the squared projection `(x ** 2) @ (v[:, k] ** 2)` after the entry
`v[i, k]` is set to `c`. -/
lemma sum_sq_mul_updV (x : Fin D → Fin N → ℚ) (v : Fin N → Fin K → ℚ)
    (i : Fin N) (k : Fin K) (c : ℚ) (d : Fin D) :
    (∑ j, (x d j) ^ 2 * (updV v i k c j k) ^ 2) =
      (∑ j ∈ univ.erase i, (x d j) ^ 2 * (v j k) ^ 2) + (x d i) ^ 2 * c ^ 2 := by
  rw [← Finset.sum_erase_add _ _ (mem_univ i)]
  congr 1
  · exact Finset.sum_congr rfl fun j hj => by
      simp [updV, Finset.ne_of_mem_erase hj]
  · simp [updV]

/-- Changing the bias shifts every prediction by `calc_df (calc_h_b x) c b`. -/
lemma predict_batch_updB (x : Fin D → Fin N → ℚ) (b : ℚ) (w : Fin N → ℚ)
    (v : Fin N → Fin K → ℚ) (c : ℚ) (d : Fin D) :
    predict_batch x c w v d =
      predict_batch x b w v d + calc_df (calc_h_b x) c b d := by
  simp only [predict_batch, calc_df, calc_h_b]
  ring

/-- Changing `w[i]` shifts every prediction by `calc_df (calc_h_w x i) c (w i)`. -/
lemma predict_batch_updW (x : Fin D → Fin N → ℚ) (b : ℚ) (w : Fin N → ℚ)
    (v : Fin N → Fin K → ℚ) (i : Fin N) (c : ℚ) (d : Fin D) :
    predict_batch x b (Function.update w i c) v d =
      predict_batch x b w v d + calc_df (calc_h_w x i) c (w i) d := by
  simp only [predict_batch, calc_df, calc_h_w]
  have h1 : (∑ j, x d j * Function.update w i c j) =
      (∑ j ∈ univ.erase i, x d j * w j) + x d i * c := by
    rw [← Finset.sum_erase_add _ _ (mem_univ i)]
    congr 1
    · exact Finset.sum_congr rfl fun j hj => by
        rw [Function.update_noteq (Finset.ne_of_mem_erase hj)]
    · rw [Function.update_same]
  have h2 : (∑ j, x d j * w j) =
      (∑ j ∈ univ.erase i, x d j * w j) + x d i * w i :=
    (Finset.sum_erase_add _ _ (mem_univ i)).symm
  rw [h1, h2]
  ring

/-- Changing `v[i, k]` shifts every prediction by
`calc_df (calc_h_v x v i k) c (v i k)`: the prediction is affine in `v[i, k]`
with slope `calc_h_v x v i k`. -/
lemma predict_batch_updV (x : Fin D → Fin N → ℚ) (b : ℚ) (w : Fin N → ℚ)
    (v : Fin N → Fin K → ℚ) (i : Fin N) (k : Fin K) (c : ℚ) (d : Fin D) :
    predict_batch x b w (updV v i k c) d =
      predict_batch x b w v d + calc_df (calc_h_v x v i k) c (v i k) d := by
  simp only [predict_batch, calc_df, calc_h_v]
  have hterm : ∀ l : Fin K, l ≠ k →
      ((∑ j, x d j * updV v i k c j l) ^ 2 - ∑ j, (x d j) ^ 2 * (updV v i k c j l) ^ 2) =
      ((∑ j, x d j * v j l) ^ 2 - ∑ j, (x d j) ^ 2 * (v j l) ^ 2) := by
    intro l hl
    have : ∀ j, updV v i k c j l = v j l := fun j => by simp [updV, hl]
    simp only [this]
  have hupd : (∑ l, ((∑ j, x d j * updV v i k c j l) ^ 2 -
        ∑ j, (x d j) ^ 2 * (updV v i k c j l) ^ 2)) =
      (∑ l ∈ univ.erase k, ((∑ j, x d j * v j l) ^ 2 -
        ∑ j, (x d j) ^ 2 * (v j l) ^ 2)) +
      (((∑ j ∈ univ.erase i, x d j * v j k) + x d i * c) ^ 2 -
        ((∑ j ∈ univ.erase i, (x d j) ^ 2 * (v j k) ^ 2) + (x d i) ^ 2 * c ^ 2)) := by
    rw [← Finset.sum_erase_add _ _ (mem_univ k)]
    congr 1
    · exact Finset.sum_congr rfl fun l hl => hterm l (Finset.ne_of_mem_erase hl)
    · rw [sum_mul_updV, sum_sq_mul_updV]
  have hv : (∑ l : Fin K, ((∑ j, x d j * v j l) ^ 2 -
        ∑ j, (x d j) ^ 2 * (v j l) ^ 2)) =
      (∑ l ∈ univ.erase k, ((∑ j, x d j * v j l) ^ 2 -
        ∑ j, (x d j) ^ 2 * (v j l) ^ 2)) +
      (((∑ j ∈ univ.erase i, x d j * v j k) + x d i * v i k) ^ 2 -
        ((∑ j ∈ univ.erase i, (x d j) ^ 2 * (v j k) ^ 2) + (x d i) ^ 2 * (v i k) ^ 2)) := by
    rw [← Finset.sum_erase_add _ _ (mem_univ k)]
    congr 1
    rw [← Finset.sum_erase_add (univ : Finset (Fin N))
        (fun j => x d j * v j k) (mem_univ i),
      ← Finset.sum_erase_add (univ : Finset (Fin N))
        (fun j => x d j ^ 2 * v j k ^ 2) (mem_univ i)]
  have hS : (∑ j, x d j * v j k) =
      (∑ j ∈ univ.erase i, x d j * v j k) + x d i * v i k :=
    (Finset.sum_erase_add _ _ (mem_univ i)).symm
  rw [hupd, hv, hS]
  ring

/-- Setting `v[i, k] = c` changes exactly column `k` of `x @ v`, by
`calc_dq x c v i k`: initialization plus the increment rule reproduce `x @ v`. -/
lemma calc_q_init_updV (x : Fin D → Fin N → ℚ) (v : Fin N → Fin K → ℚ)
    (i : Fin N) (k : Fin K) (c : ℚ) :
    calc_q_init x (updV v i k c) =
      updQcol (calc_q_init x v) k (calc_dq x c v i k) := by
  funext d l
  simp only [calc_q_init, updQcol, calc_dq]
  by_cases hl : l = k
  · subst hl
    rw [if_pos rfl, sum_mul_updV,
      ← Finset.sum_erase_add (univ : Finset (Fin N)) (fun j => x d j * v j l)
        (mem_univ i)]
    ring
  · rw [if_neg hl]
    exact Finset.sum_congr rfl fun j _ => by simp [updV, hl]

/-- With a consistent cache `q = x @ v`, the cached derivative formula agrees
with the direct one. -/
lemma calc_h_v_fast_eq (x : Fin D → Fin N → ℚ) (v : Fin N → Fin K → ℚ)
    (q : Fin D → Fin K → ℚ) (i : Fin N) (k : Fin K)
    (hq : q = calc_q_init x v) :
    calc_h_v_fast x v q i k = calc_h_v x v i k := by
  subst hq
  rfl

end FM

namespace FM

variable {D N K : ℕ}

/-- C7: for every batch `x`, factor matrix `v` and indices `i`, `k`, if
`q = x @ v` then `calc_h_v_fast(x, v, q, i, k) = x[:, i] * (q[:, k] - x[:, i] * v[i, k])`
equals the direct computation `calc_h_v(x, v, i, k) = x[:, i] * (x @ v[:, k] - x[:, i] * v[i, k])`
exactly. -/
theorem c7_h_v_fast_refines (x : Fin D → Fin N → ℚ) (v : Fin N → Fin K → ℚ)
    (q : Fin D → Fin K → ℚ) (i : Fin N) (k : Fin K)
    (hq : q = calc_q_init x v) :
    calc_h_v_fast x v q i k = calc_h_v x v i k :=
  calc_h_v_fast_eq x v q i k hq

/-- Witness for C7 at `D = N = K = 1`, `x = [[2]]`, `v = [[3]]`, `q = x @ v`. -/
theorem c7_h_v_fast_refines_witness :
    calc_h_v_fast (fun (_ : Fin 1) (_ : Fin 1) => (2 : ℚ))
      (fun (_ : Fin 1) (_ : Fin 1) => (3 : ℚ))
      (calc_q_init (fun (_ : Fin 1) (_ : Fin 1) => (2 : ℚ))
        (fun (_ : Fin 1) (_ : Fin 1) => (3 : ℚ))) (0 : Fin 1) (0 : Fin 1) =
    calc_h_v (fun (_ : Fin 1) (_ : Fin 1) => (2 : ℚ))
      (fun (_ : Fin 1) (_ : Fin 1) => (3 : ℚ)) (0 : Fin 1) (0 : Fin 1) :=
  c7_h_v_fast_refines _ _ _ _ _ rfl

/-- Direct form of `calc_h_v` with the `i`-th summand cancelled: the derivative
with respect to `v[i, k]` does not involve `v[i, k]` itself. -/
lemma calc_h_v_eq_erase (x : Fin D → Fin N → ℚ) (v : Fin N → Fin K → ℚ)
    (i : Fin N) (k : Fin K) :
    calc_h_v x v i k = fun d => x d i * ∑ j ∈ univ.erase i, x d j * v j k := by
  funext d
  simp only [calc_h_v]
  rw [← Finset.sum_erase_add (univ : Finset (Fin N)) (fun j => x d j * v j k)
    (mem_univ i)]
  ring

/-- `calc_h_v` evaluated after `v[i, k]` is overwritten: the result does not
depend on the written value. -/
lemma calc_h_v_updV (x : Fin D → Fin N → ℚ) (v : Fin N → Fin K → ℚ)
    (i : Fin N) (k : Fin K) (c : ℚ) :
    calc_h_v x (updV v i k c) i k =
      fun d => x d i * ∑ j ∈ univ.erase i, x d j * v j k := by
  funext d
  simp only [calc_h_v]
  rw [sum_mul_updV]
  have : updV v i k c i k = c := by simp [updV]
  rw [this]
  ring

/-! ### The incremental-update state machine

`fast_updates` in the notebook keeps, besides the parameters `(b, w, v)`, the
cached vector `f` of predictions and the cached projection `q = x @ v`; each
single-scalar update computes `h` from the cached-state formulas
(`calc_h_b` / `calc_h_w` / `calc_h_v_fast`), adds `calc_df h new old` to `f`,
adds `calc_dq` to column `k` of `q` (for `v`-updates), and then commits the
new parameter value. -/

/-- Parameters plus cached state `(f, q)` of the incremental scorer. -/
structure FMState (D N K : ℕ) where
  b : ℚ
  w : Fin N → ℚ
  v : Fin N → Fin K → ℚ
  f : Fin D → ℚ
  q : Fin D → Fin K → ℚ

/-- A single-scalar parameter update: to `b`, to some `w[i]`, or to some `v[i, k]`. -/
inductive Update (N K : ℕ) where
  | setB (c : ℚ)
  | setW (i : Fin N) (c : ℚ)
  | setV (i : Fin N) (k : Fin K) (c : ℚ)

/-- One step of the incremental path: `f += calc_df h new old` with `h` from the
cached-state formulas, `q[:, k] += calc_dq` for `v`-updates, then the parameter
is committed. -/
def apply_update (x : Fin D → Fin N → ℚ) (s : FMState D N K) :
    Update N K → FMState D N K
  | .setB c =>
      { s with b := c,
               f := fun d => s.f d + calc_df (calc_h_b x) c s.b d }
  | .setW i c =>
      { s with w := Function.update s.w i c,
               f := fun d => s.f d + calc_df (calc_h_w x i) c (s.w i) d }
  | .setV i k c =>
      { s with v := updV s.v i k c,
               f := fun d => s.f d + calc_df (calc_h_v_fast x s.v s.q i k) c (s.v i k) d,
               q := updQcol s.q k (calc_dq x c s.v i k) }

/-- The state at the start of an update loop: `f` from a full forward pass,
`q` from `calc_q_init`. -/
def init_state (x : Fin D → Fin N → ℚ) (b : ℚ) (w : Fin N → ℚ)
    (v : Fin N → Fin K → ℚ) : FMState D N K :=
  { b := b, w := w, v := v, f := predict_batch x b w v, q := calc_q_init x v }

/-- Running a finite sequence of single-scalar updates through the incremental path. -/
def run_updates (x : Fin D → Fin N → ℚ) (s : FMState D N K)
    (us : List (Update N K)) : FMState D N K :=
  us.foldl (apply_update x) s

/-- The cached state is consistent: `f` equals `predict` recomputed from
scratch and `q` equals `x @ v`, both for the current parameters. -/
def Consistent (x : Fin D → Fin N → ℚ) (s : FMState D N K) : Prop :=
  s.f = predict_batch x s.b s.w s.v ∧ s.q = calc_q_init x s.v

/-- One incremental step preserves consistency of the cached state. -/
lemma consistent_apply_update (x : Fin D → Fin N → ℚ) (s : FMState D N K)
    (u : Update N K) (hs : Consistent x s) :
    Consistent x (apply_update x s u) := by
  obtain ⟨hf, hq⟩ := hs
  cases u with
  | setB c =>
      refine ⟨?_, hq⟩
      funext d
      simp only [apply_update, hf]
      exact (predict_batch_updB x s.b s.w s.v c d).symm
  | setW i c =>
      refine ⟨?_, hq⟩
      funext d
      simp only [apply_update, hf]
      exact (predict_batch_updW x s.b s.w s.v i c d).symm
  | setV i k c =>
      constructor
      · funext d
        simp only [apply_update, hf, calc_h_v_fast_eq x s.v s.q i k hq]
        exact (predict_batch_updV x s.b s.w s.v i k c d).symm
      · simp only [apply_update, hq, calc_q_init_updV]

/-- Any finite run of incremental updates preserves consistency. -/
lemma consistent_run_updates (x : Fin D → Fin N → ℚ) (s : FMState D N K)
    (us : List (Update N K)) (hs : Consistent x s) :
    Consistent x (run_updates x s us) := by
  induction us generalizing s with
  | nil => exact hs
  | cons u us ih => exact ih _ (consistent_apply_update x s u hs)

/-- The initial state is consistent. -/
lemma consistent_init (x : Fin D → Fin N → ℚ) (b : ℚ) (w : Fin N → ℚ)
    (v : Fin N → Fin K → ℚ) :
    Consistent x (init_state x b w v) :=
  ⟨rfl, rfl⟩

/-- C1: for every batch `x`, every initial `(b, w, v)` and every finite
sequence of single-scalar updates, maintaining `f` by `f + calc_df h new old`
with `h` from the cached-state formulas (`calc_h_b` / `calc_h_w` /
`calc_h_v_fast` over the cached `q`, itself maintained by its increment rule)
yields at every step exactly the value of recomputing `predict` from scratch
with the current parameters.  (Every step is covered because every prefix of
the update sequence is itself an update sequence.) -/
theorem c1_incremental_matches_predict (x : Fin D → Fin N → ℚ) (b : ℚ)
    (w : Fin N → ℚ) (v : Fin N → Fin K → ℚ) (us : List (Update N K)) :
    (run_updates x (init_state x b w v) us).f =
      predict_batch x (run_updates x (init_state x b w v) us).b
        (run_updates x (init_state x b w v) us).w
        (run_updates x (init_state x b w v) us).v :=
  (consistent_run_updates x (init_state x b w v) us (consistent_init x b w v)).1

/-- One `(i, k, c)` entry-update of the `(v, q)` pair: `q[:, k] += calc_dq`
before `v[i, k] = c` is committed. -/
def vq_step (x : Fin D → Fin N → ℚ)
    (vq : (Fin N → Fin K → ℚ) × (Fin D → Fin K → ℚ))
    (u : Fin N × Fin K × ℚ) : (Fin N → Fin K → ℚ) × (Fin D → Fin K → ℚ) :=
  (updV vq.1 u.1 u.2.1 u.2.2, updQcol vq.2 u.2.1 (calc_dq x u.2.2 vq.1 u.1 u.2.1))

/-- Helper invariant for C2: `q = x @ v` is preserved by every `vq_step`. -/
lemma vq_invariant (x : Fin D → Fin N → ℚ)
    (vq : (Fin N → Fin K → ℚ) × (Fin D → Fin K → ℚ))
    (us : List (Fin N × Fin K × ℚ)) (h : vq.2 = calc_q_init x vq.1) :
    (us.foldl (vq_step x) vq).2 = calc_q_init x (us.foldl (vq_step x) vq).1 := by
  induction us generalizing vq with
  | nil => exact h
  | cons u us ih =>
      refine ih _ ?_
      simp only [vq_step, h, calc_q_init_updV]

/-- C2: if `q` is initialized as `x @ v` (`calc_q_init`) and each single-entry
update of `v` at `(i, k)` increments column `k` of `q` by `calc_dq` before
committing the new entry, then after any number of such updates `q` equals
`x @ v` for the current `v`, entrywise and exactly. -/
theorem c2_q_invariant (x : Fin D → Fin N → ℚ) (v : Fin N → Fin K → ℚ)
    (us : List (Fin N × Fin K × ℚ)) :
    (us.foldl (vq_step x) (v, calc_q_init x v)).2 =
      calc_q_init x (us.foldl (vq_step x) (v, calc_q_init x v)).1 :=
  vq_invariant x (v, calc_q_init x v) us rfl

/-- C3: the prediction is affine-linear in every single scalar parameter
`θ ∈ {b, w[i], v[i,k]}`: `f = θ * h_θ + g_θ` with `h_θ` from
`calc_h_b` / `calc_h_w` / `calc_h_v` and `g_θ = f - h_θ * θ` from `calc_g`;
moreover `h_θ` and `g_θ` are unchanged when `θ` alone is replaced by any other
value.  (`calc_h_b` and `calc_h_w` do not even take `b` resp. `w` as
arguments, so their invariance in `θ` is definitional; the substantive
conjuncts are the invariance of `calc_h_v` and of `calc_g` for each kind.) -/
theorem c3_affine_linearity (x : Fin D → Fin N → ℚ) (b : ℚ) (w : Fin N → ℚ)
    (v : Fin N → Fin K → ℚ) (i : Fin N) (k : Fin K) :
    (∀ d, predict_batch x b w v d =
      b * calc_h_b x d + calc_g (predict_batch x b w v) (calc_h_b x) b d) ∧
    (∀ d, predict_batch x b w v d =
      w i * calc_h_w x i d + calc_g (predict_batch x b w v) (calc_h_w x i) (w i) d) ∧
    (∀ d, predict_batch x b w v d =
      v i k * calc_h_v x v i k d +
        calc_g (predict_batch x b w v) (calc_h_v x v i k) (v i k) d) ∧
    (∀ c c' : ℚ, calc_h_v x (updV v i k c) i k = calc_h_v x (updV v i k c') i k) ∧
    (∀ c : ℚ, calc_g (predict_batch x c w v) (calc_h_b x) c =
      calc_g (predict_batch x b w v) (calc_h_b x) b) ∧
    (∀ c : ℚ, calc_g (predict_batch x b (Function.update w i c) v) (calc_h_w x i) c =
      calc_g (predict_batch x b w v) (calc_h_w x i) (w i)) ∧
    (∀ c : ℚ, calc_g (predict_batch x b w (updV v i k c))
        (calc_h_v x (updV v i k c) i k) c =
      calc_g (predict_batch x b w v) (calc_h_v x v i k) (v i k)) := by
  refine ⟨?_, ?_, ?_, ?_, ?_, ?_, ?_⟩
  · intro d; simp only [calc_g, calc_h_b]; ring
  · intro d; simp only [calc_g, calc_h_w]; ring
  · intro d; simp only [calc_g, calc_h_v]; ring
  · intro c c'; rw [calc_h_v_updV, calc_h_v_updV]
  · intro c
    funext d
    simp only [calc_g, calc_h_b]
    rw [predict_batch_updB x b w v c d]
    simp only [calc_df, calc_h_b]
    ring
  · intro c
    funext d
    simp only [calc_g, calc_h_w]
    rw [predict_batch_updW x b w v i c d]
    simp only [calc_df, calc_h_w, Function.update_same]
    ring
  · intro c
    funext d
    simp only [calc_g]
    rw [predict_batch_updV x b w v i k c d]
    simp only [calc_df]
    rw [congrFun (calc_h_v_updV x v i k c) d,
      congrFun (calc_h_v_eq_erase x v i k) d]
    ring

/-- Square of a sum: `(Σ g)² = Σ g² + 2 Σ_{i<j} g i g j`, the identity behind
the `O(DNK)` reformulation of the pairwise interaction term. -/
lemma sq_sum_eq {n : ℕ} (s : Finset (Fin n)) (g : Fin n → ℚ) :
    (∑ i ∈ s, g i) ^ 2 =
      (∑ i ∈ s, g i ^ 2) +
        2 * ∑ i ∈ s, ∑ j ∈ s.filter (fun j => i < j), g i * g j := by
  induction s using Finset.induction_on with
  | empty => simp
  | @insert a s ha ih =>
      have hpart : (∑ i ∈ s.filter (fun i => i < a), g i) +
          (∑ i ∈ s.filter (fun i => a < i), g i) = ∑ i ∈ s, g i := by
        rw [← Finset.sum_filter_add_sum_filter_not s (fun i => i < a) g]
        have hfilter : s.filter (fun i => ¬ i < a) = s.filter (fun i => a < i) := by
          refine Finset.filter_congr fun i hi => ?_
          constructor
          · intro hcond
            exact lt_of_le_of_ne (not_lt.mp hcond) fun he => ha (he ▸ hi)
          · exact fun hcond => not_lt.mpr hcond.le
        rw [hfilter]
      have hfa : (insert a s).filter (fun j => a < j) =
          s.filter (fun j => a < j) := by
        rw [Finset.filter_insert, if_neg (lt_irrefl a)]
      have hcross : (∑ i ∈ insert a s,
            ∑ j ∈ (insert a s).filter (fun j => i < j), g i * g j) =
          (∑ i ∈ s, ∑ j ∈ s.filter (fun j => i < j), g i * g j) +
            g a * ∑ i ∈ s, g i := by
        rw [Finset.sum_insert ha, hfa]
        have hstep : ∀ i ∈ s,
            (∑ j ∈ (insert a s).filter (fun j => i < j), g i * g j) =
              (∑ j ∈ s.filter (fun j => i < j), g i * g j) +
                (if i < a then g i * g a else 0) := by
          intro i hi
          rw [Finset.filter_insert]
          by_cases hia : i < a
          · rw [if_pos hia, if_pos hia,
              Finset.sum_insert fun hmem => ha (Finset.mem_of_mem_filter a hmem)]
            ring
          · rw [if_neg hia, if_neg hia, add_zero]
        rw [Finset.sum_congr rfl hstep, Finset.sum_add_distrib, ← Finset.sum_filter,
          ← Finset.mul_sum, ← Finset.sum_mul, ← hpart]
        ring
      rw [hcross, Finset.sum_insert ha, Finset.sum_insert ha]
      linear_combination ih

/-- Reference FM score of a single row, with the pairwise interaction written
as an explicit sum over feature pairs `i < j` (the defining formula of a
factorization machine, as displayed in the notebook):
`b + Σ_i w_i x_i + Σ_{i<j} Σ_k v_ik v_jk x_i x_j`. -/
def fm_score_pairwise (x : Fin N → ℚ) (b : ℚ) (w : Fin N → ℚ)
    (v : Fin N → Fin K → ℚ) : ℚ :=
  b + (∑ i, w i * x i) +
    ∑ i, ∑ j ∈ univ.filter (fun j => i < j), ∑ k, v i k * v j k * x i * x j

/-- C4: for every row of the batch, the value computed by `predict` — bias
plus linear term plus `0.5 * Σ_k ((x @ v[:,k])² - (x²) @ (v[:,k]²))` — equals
the reference factorization-machine score
`b + Σ_i w_i x_i + Σ_{i<j} Σ_k v_ik v_jk x_i x_j`, exactly. -/
theorem c4_predict_eq_pairwise (x : Fin D → Fin N → ℚ) (b : ℚ)
    (w : Fin N → ℚ) (v : Fin N → Fin K → ℚ) (d : Fin D) :
    predict_batch x b w v d = fm_score_pairwise (x d) b w v := by
  simp only [predict_batch, fm_score_pairwise]
  have hlin : (∑ i, x d i * w i) = ∑ i, w i * x d i :=
    Finset.sum_congr rfl fun i _ => mul_comm _ _
  have hk : ∀ k : Fin K,
      ((∑ i, x d i * v i k) ^ 2 - ∑ i, (x d i) ^ 2 * (v i k) ^ 2) =
        2 * ∑ i, ∑ j ∈ univ.filter (fun j => i < j),
          (x d i * v i k) * (x d j * v j k) := by
    intro k
    have hsame : (∑ i, (x d i) ^ 2 * (v i k) ^ 2) =
        ∑ i, (x d i * v i k) ^ 2 :=
      Finset.sum_congr rfl fun i _ => by ring
    rw [hsame, sq_sum_eq (univ : Finset (Fin N)) (fun i => x d i * v i k)]
    ring
  rw [Finset.sum_congr rfl fun k _ => hk k, ← Finset.mul_sum, hlin]
  have hswap : (∑ k : Fin K, ∑ i, ∑ j ∈ univ.filter (fun j => i < j),
        (x d i * v i k) * (x d j * v j k)) =
      ∑ i, ∑ j ∈ univ.filter (fun j => i < j),
        ∑ k, v i k * v j k * x d i * x d j := by
    rw [Finset.sum_comm]
    refine Finset.sum_congr rfl fun i _ => ?_
    rw [Finset.sum_comm]
    exact Finset.sum_congr rfl fun j _ =>
      Finset.sum_congr rfl fun k _ => by ring
  rw [hswap]
  ring

/-- Result of `FactorizationMachines.predict`: either a Python float
(`float(result[0])`) or a vector of some length `D`. -/
inductive PredictResult where
  | scalar (y : ℚ)
  | vec (D : ℕ) (y : Fin D → ℚ)

/-- Whether `predict` returned a Python float rather than a vector. -/
def PredictResult.isScalar : PredictResult → Bool
  | .scalar _ => true
  | .vec _ _ => false

/-- Input of `predict`: a single row (`x.ndim == 1`) or a 2-dimensional batch. -/
inductive FMInput (N : ℕ) where
  | single (x : Fin N → ℚ)
  | batch (D : ℕ) (x : Fin D → Fin N → ℚ)

namespace FactorizationMachines

/-- `FactorizationMachines.predict`: a 1-D input is first reshaped to a
`1 × N` batch; the batch scores are computed as in `predict_batch`; finally,
`if result.shape[0] == 1: return float(result[0])`, else return the vector. -/
def predict {N K : ℕ} (inp : FMInput N) (b : ℚ) (w : Fin N → ℚ)
    (v : Fin N → Fin K → ℚ) : PredictResult :=
  match inp with
  | .single x =>
      PredictResult.scalar (predict_batch (fun _ : Fin 1 => x) b w v 0)
  | .batch D x =>
      if h : D = 1 then
        PredictResult.scalar (predict_batch x b w v ⟨0, by omega⟩)
      else
        PredictResult.vec D (predict_batch x b w v)

end FactorizationMachines

/-- C9 counterexample: for the 2-dimensional batch `x = [[3]]` (`D = 1`,
`N = 1`), `predict` hits the `result.shape[0] == 1` branch and returns the
Python float `float(result[0])`, not a length-1 vector as the claim states. -/
theorem c9_batch_one_returns_scalar :
    (FactorizationMachines.predict
      (FMInput.batch 1 (fun (_ : Fin 1) (_ : Fin 1) => (3 : ℚ)))
      0 (fun _ => 0) (fun (_ : Fin 1) (_ : Fin 1) => (0 : ℚ))).isScalar = true :=
  rfl

/-- C9 (amended): `predict` returns a length-`D` vector for a batch with
`D ≥ 2` and a scalar for a single-row (1-D) input; for a 2-dimensional batch
with `D = 1` it also returns a scalar (`float(result[0])`), not a length-1
vector, because the scalarization tests `result.shape[0] == 1`. -/
theorem c9_predict_shape {N K : ℕ} (b : ℚ) (w : Fin N → ℚ)
    (v : Fin N → Fin K → ℚ) :
    (∀ (D : ℕ) (x : Fin D → Fin N → ℚ), 2 ≤ D →
      FactorizationMachines.predict (FMInput.batch D x) b w v =
        PredictResult.vec D (predict_batch x b w v)) ∧
    (∀ x : Fin N → ℚ,
      FactorizationMachines.predict (FMInput.single x) b w v =
        PredictResult.scalar (predict_batch (fun _ : Fin 1 => x) b w v 0)) ∧
    (∀ x : Fin 1 → Fin N → ℚ,
      FactorizationMachines.predict (FMInput.batch 1 x) b w v =
        PredictResult.scalar (predict_batch x b w v 0)) := by
  refine ⟨?_, fun x => rfl, fun x => rfl⟩
  intro D x hD
  simp only [FactorizationMachines.predict]
  rw [dif_neg (by omega)]

/-- Witness for C9 at `D = 2`, `N = K = 1`. -/
theorem c9_predict_shape_witness :
    FactorizationMachines.predict
      (FMInput.batch 2 (fun (_ : Fin 2) (_ : Fin 1) => (1 : ℚ)))
      0 (fun _ => 0) (fun (_ : Fin 1) (_ : Fin 1) => (0 : ℚ)) =
    PredictResult.vec 2 (predict_batch (fun (_ : Fin 2) (_ : Fin 1) => (1 : ℚ))
      0 (fun _ => 0) (fun (_ : Fin 1) (_ : Fin 1) => (0 : ℚ))) :=
  (c9_predict_shape 0 (fun _ => 0) (fun _ _ => 0)).1 2 _ (by norm_num)

/-- C10: an update with an unchanged parameter value is the identity on the
cached state: `calc_df h p p = 0`, `calc_dq x v[i,k] v i k = 0`, and applying
such an update leaves both `f` and `q` unchanged. -/
theorem c10_noop_update (h f : Fin D → ℚ) (p : ℚ) (x : Fin D → Fin N → ℚ)
    (v : Fin N → Fin K → ℚ) (q : Fin D → Fin K → ℚ) (i : Fin N) (k : Fin K) :
    calc_df h p p = 0 ∧
    calc_dq x (v i k) v i k = 0 ∧
    (fun d => f d + calc_df h p p d) = f ∧
    updQcol q k (calc_dq x (v i k) v i k) = q := by
  refine ⟨?_, ?_, ?_, ?_⟩
  · funext d; simp [calc_df]
  · funext d; simp [calc_dq]
  · funext d; simp [calc_df]
  · funext d l; simp only [updQcol, calc_dq, sub_self, zero_mul, add_zero]
    split <;> rfl

end FM

namespace Sampler

open Matrix

variable {D N : ℕ}

/-- Coefficient matrix of step 3 of the sampler:
`Phi @ Delta @ Phi.T + np.eye(D)`. -/
def step3_matrix (Phi : Matrix (Fin D) (Fin N) ℚ)
    (Delta : Matrix (Fin N) (Fin N) ℚ) : Matrix (Fin D) (Fin D) ℚ :=
  Phi * Delta * Phi.transpose + 1

/-- `sample_gaussian_efficient`, with its random draws made explicit inputs:
`u` is the draw from `N(0, Delta)` of step 1, and step 2's
`v = rng.normal(Phi @ u, ones(D))` is `Phi.mulVec u + eps` with `eps` the
standard-normal noise; `w` is the result of the linear solve of step 3
(`np.linalg.solve(Phi @ Delta @ Phi.T + np.eye(D), alpha - v)`, characterized
in the theorems by `(step3_matrix Phi Delta).mulVec w = alpha - v`); the
return value of step 4 is `u + Delta @ Phi.T @ w`. -/
def sample_gaussian_efficient (Phi : Matrix (Fin D) (Fin N) ℚ)
    (Delta : Matrix (Fin N) (Fin N) ℚ) (u : Fin N → ℚ) (w : Fin D → ℚ) :
    Fin N → ℚ :=
  u + (Delta * Phi.transpose).mulVec w

/-- Positive definiteness over `ℚ`: symmetric, with positive quadratic form
on every nonzero vector. -/
def IsPosDef {n : ℕ} (A : Matrix (Fin n) (Fin n) ℚ) : Prop :=
  A.transpose = A ∧
    ∀ x : Fin n → ℚ, x ≠ 0 → 0 < Matrix.dotProduct x (A.mulVec x)

/-- The standard dot product of a nonzero rational vector with itself is positive. -/
lemma dotProduct_self_pos {n : ℕ} (x : Fin n → ℚ) (hx : x ≠ 0) :
    0 < Matrix.dotProduct x x := by
  have hle : 0 ≤ Matrix.dotProduct x x :=
    Finset.sum_nonneg fun i _ => mul_self_nonneg (x i)
  rcases hle.lt_or_eq with h | h
  · exact h
  · exact absurd (Matrix.dotProduct_self_eq_zero.mp h.symm) hx

/-- A positive-definite matrix has a nonnegative quadratic form everywhere. -/
lemma IsPosDef.quad_nonneg {n : ℕ} {A : Matrix (Fin n) (Fin n) ℚ}
    (hA : IsPosDef A) (y : Fin n → ℚ) :
    0 ≤ Matrix.dotProduct y (A.mulVec y) := by
  by_cases hy : y = 0
  · subst hy
    rw [Matrix.mulVec_zero, Matrix.dotProduct_zero]
  · exact (hA.2 y hy).le

/-- C6: for every `Phi` (`D × N`) and symmetric positive definite `Delta`
(`N × N`), the matrix `Phi @ Delta @ Phi.T + I_D` is positive definite, and
the linear solve of step 3 has a unique solution for every right-hand side,
so it cannot fail for valid inputs. -/
theorem c6_step3_posdef (Phi : Matrix (Fin D) (Fin N) ℚ)
    (Delta : Matrix (Fin N) (Fin N) ℚ) (hΔ : IsPosDef Delta) :
    IsPosDef (step3_matrix Phi Delta) ∧
      ∀ bvec : Fin D → ℚ, ∃! w, (step3_matrix Phi Delta).mulVec w = bvec := by
  have hquad : ∀ x : Fin D → ℚ, x ≠ 0 →
      0 < Matrix.dotProduct x ((step3_matrix Phi Delta).mulVec x) := by
    intro x hx
    have hsplit : Matrix.dotProduct x ((step3_matrix Phi Delta).mulVec x) =
        Matrix.dotProduct (Phi.transpose.mulVec x)
            (Delta.mulVec (Phi.transpose.mulVec x)) +
          Matrix.dotProduct x x := by
      simp only [step3_matrix, Matrix.add_mulVec, Matrix.one_mulVec,
        Matrix.dotProduct_add]
      congr 1
      rw [← Matrix.mulVec_mulVec, ← Matrix.mulVec_mulVec,
        Matrix.dotProduct_mulVec, ← Matrix.mulVec_transpose]
    rw [hsplit]
    have h1 : 0 ≤ Matrix.dotProduct (Phi.transpose.mulVec x)
        (Delta.mulVec (Phi.transpose.mulVec x)) :=
      hΔ.quad_nonneg _
    have h2 : 0 < Matrix.dotProduct x x := dotProduct_self_pos x hx
    linarith
  have hsym : (step3_matrix Phi Delta).transpose = step3_matrix Phi Delta := by
    simp only [step3_matrix, Matrix.transpose_add, Matrix.transpose_one,
      Matrix.transpose_mul, Matrix.transpose_transpose, hΔ.1, Matrix.mul_assoc]
  have hinj : Function.Injective (step3_matrix Phi Delta).mulVecLin := by
    intro a b hab
    by_contra hne
    have hsub : (step3_matrix Phi Delta).mulVec (a - b) = 0 := by
      rw [Matrix.mulVec_sub, sub_eq_zero]
      exact hab
    have h0 : Matrix.dotProduct (a - b)
        ((step3_matrix Phi Delta).mulVec (a - b)) = 0 := by
      rw [hsub, Matrix.dotProduct_zero]
    exact absurd h0 (ne_of_gt (hquad (a - b) (sub_ne_zero.mpr hne)))
  have hsurj : Function.Surjective (step3_matrix Phi Delta).mulVecLin :=
    LinearMap.injective_iff_surjective.mp hinj
  refine ⟨⟨hsym, hquad⟩, fun bvec => ?_⟩
  obtain ⟨w, hw⟩ := hsurj bvec
  refine ⟨w, hw, fun y hy => hinj ?_⟩
  rw [Matrix.mulVecLin_apply, Matrix.mulVecLin_apply] at *
  exact hy.trans hw.symm

/-- C5: in exact arithmetic, the value returned by
`sample_gaussian_efficient` is an affine map of the Gaussian draws
`(u, eps)`:
`theta = V Φᵀ α + (I - V Φᵀ Φ) u - V Φᵀ eps`
where `V` is the (two-sided) inverse of `Φᵀ Φ + Δ⁻¹`; its constant term is
the target mean `m = V Φᵀ α` (since `u` and `eps` have mean zero), and with
`Cov u = Δ`, `Cov eps = I` and `u, eps` independent its covariance
`A Δ Aᵀ + B Bᵀ` (for `A = I - V Φᵀ Φ`, `B = V Φᵀ`) equals the target
covariance `V`.  Hence `theta` is distributed as a direct sample from
`N(m, V)`.  (`M` is the inverse computed by the step-3 solve and `Dinv` is
`Δ⁻¹`; both are supplied with their defining equations, which is how
`np.linalg.solve` is specified for an invertible system.) -/
theorem c5_sampler_mean_cov (Phi : Matrix (Fin D) (Fin N) ℚ)
    (alpha : Fin D → ℚ) (Delta : Matrix (Fin N) (Fin N) ℚ)
    (M : Matrix (Fin D) (Fin D) ℚ) (Dinv V : Matrix (Fin N) (Fin N) ℚ)
    (hΔsym : Delta.transpose = Delta)
    (hM1 : step3_matrix Phi Delta * M = 1)
    (hM2 : M * step3_matrix Phi Delta = 1)
    (hD1 : Delta * Dinv = 1) (hD2 : Dinv * Delta = 1)
    (hV1 : (Phi.transpose * Phi + Dinv) * V = 1)
    (hV2 : V * (Phi.transpose * Phi + Dinv) = 1) :
    (∀ (u : Fin N → ℚ) (eps w : Fin D → ℚ),
      (step3_matrix Phi Delta).mulVec w = alpha - (Phi.mulVec u + eps) →
      sample_gaussian_efficient Phi Delta u w =
        (V * Phi.transpose).mulVec alpha +
          ((1 - V * (Phi.transpose * Phi)).mulVec u -
            (V * Phi.transpose).mulVec eps)) ∧
    (1 - V * (Phi.transpose * Phi)) * Delta *
        (1 - V * (Phi.transpose * Phi)).transpose +
      (V * Phi.transpose) * (V * Phi.transpose).transpose = V := by
  -- `Δ Φᵀ M = V Φᵀ`: the push-through identity behind the algorithm.
  have hpush : (Phi.transpose * Phi + Dinv) * (Delta * Phi.transpose) =
      Phi.transpose * step3_matrix Phi Delta := by
    rw [step3_matrix, Matrix.add_mul, Matrix.mul_add, Matrix.mul_one]
    congr 1
    · simp only [Matrix.mul_assoc]
    · rw [← Matrix.mul_assoc, hD2, Matrix.one_mul]
  have key : Delta * Phi.transpose * M = V * Phi.transpose := by
    have h2 : Delta * Phi.transpose =
        V * (Phi.transpose * step3_matrix Phi Delta) := by
      rw [← hpush, ← Matrix.mul_assoc, hV2, Matrix.one_mul]
    calc Delta * Phi.transpose * M
        = V * (Phi.transpose * step3_matrix Phi Delta) * M := by rw [h2]
      _ = V * (Phi.transpose * (step3_matrix Phi Delta * M)) := by
          simp only [Matrix.mul_assoc]
      _ = V * Phi.transpose := by rw [hM1, Matrix.mul_one]
  -- `I - V Φᵀ Φ = V Δ⁻¹`.
  have hA : (1 : Matrix (Fin N) (Fin N) ℚ) - V * (Phi.transpose * Phi) =
      V * Dinv := by
    have hsum : V * (Phi.transpose * Phi) + V * Dinv = 1 := by
      rw [← mul_add, hV2]
    rw [sub_eq_iff_eq_add, ← hsum]
    exact add_comm _ _
  -- `Δ⁻¹` and `V` are symmetric.
  have hDinvsym : Dinv.transpose = Dinv := by
    have h1 : Dinv.transpose * Delta = 1 := by
      have := congrArg Matrix.transpose hD1
      rwa [Matrix.transpose_mul, Matrix.transpose_one, hΔsym] at this
    calc Dinv.transpose = Dinv.transpose * (Delta * Dinv) := by
          rw [hD1, Matrix.mul_one]
      _ = Dinv.transpose * Delta * Dinv := by rw [Matrix.mul_assoc]
      _ = Dinv := by rw [h1, Matrix.one_mul]
  have hVt : V.transpose * (Phi.transpose * Phi + Dinv) = 1 := by
    have := congrArg Matrix.transpose hV1
    simp only [Matrix.transpose_mul, Matrix.transpose_add,
      Matrix.transpose_transpose, Matrix.transpose_one, hDinvsym] at this
    exact this
  have hVsym : V.transpose = V := by
    calc V.transpose = V.transpose * ((Phi.transpose * Phi + Dinv) * V) := by
          rw [hV1, Matrix.mul_one]
      _ = V.transpose * (Phi.transpose * Phi + Dinv) * V := by
          rw [Matrix.mul_assoc]
      _ = V := by rw [hVt, Matrix.one_mul]
  constructor
  · intro u eps w hw
    have hw' : w = M.mulVec (alpha - (Phi.mulVec u + eps)) := by
      rw [← hw, Matrix.mulVec_mulVec, hM2, Matrix.one_mulVec]
    simp only [sample_gaussian_efficient]
    rw [hw', Matrix.mulVec_mulVec, key, Matrix.mulVec_sub, Matrix.mulVec_add,
      Matrix.mulVec_mulVec, Matrix.sub_mulVec, Matrix.one_mulVec,
      ← Matrix.mul_assoc]
    abel
  · rw [hA]
    simp only [Matrix.transpose_mul, Matrix.transpose_transpose, hDinvsym,
      hVsym]
    have e1 : V * Dinv * Delta = V := by
      rw [Matrix.mul_assoc, hD2, Matrix.mul_one]
    have e2 : V * Phi.transpose * (Phi * V) =
        V * (Phi.transpose * Phi * V) := by
      simp only [Matrix.mul_assoc]
    have e3 : V * (Phi.transpose * Phi + Dinv) * V =
        V * (Dinv * V) + V * (Phi.transpose * Phi * V) := by
      rw [mul_add, add_mul]
      simp only [Matrix.mul_assoc]
      exact add_comm _ _
    rw [e1, e2, ← e3, hV2, Matrix.one_mul]

/-- Witness for C5 at `D = N = 1`, `Phi = [[0]]`, `Delta = Dinv = V = M = I`,
`alpha = [5]`. -/
theorem c5_sampler_mean_cov_witness :
    (∀ (u : Fin 1 → ℚ) (eps w : Fin 1 → ℚ),
      (step3_matrix (0 : Matrix (Fin 1) (Fin 1) ℚ) 1).mulVec w =
        (fun _ => (5 : ℚ)) - ((0 : Matrix (Fin 1) (Fin 1) ℚ).mulVec u + eps) →
      sample_gaussian_efficient (0 : Matrix (Fin 1) (Fin 1) ℚ) 1 u w =
        ((1 : Matrix (Fin 1) (Fin 1) ℚ) *
            (0 : Matrix (Fin 1) (Fin 1) ℚ).transpose).mulVec (fun _ => (5 : ℚ)) +
          ((1 - (1 : Matrix (Fin 1) (Fin 1) ℚ) *
              ((0 : Matrix (Fin 1) (Fin 1) ℚ).transpose *
                (0 : Matrix (Fin 1) (Fin 1) ℚ))).mulVec u -
            ((1 : Matrix (Fin 1) (Fin 1) ℚ) *
              (0 : Matrix (Fin 1) (Fin 1) ℚ).transpose).mulVec eps)) ∧
    (1 - (1 : Matrix (Fin 1) (Fin 1) ℚ) *
        ((0 : Matrix (Fin 1) (Fin 1) ℚ).transpose *
          (0 : Matrix (Fin 1) (Fin 1) ℚ))) * 1 *
        (1 - (1 : Matrix (Fin 1) (Fin 1) ℚ) *
          ((0 : Matrix (Fin 1) (Fin 1) ℚ).transpose *
            (0 : Matrix (Fin 1) (Fin 1) ℚ))).transpose +
      ((1 : Matrix (Fin 1) (Fin 1) ℚ) * (0 : Matrix (Fin 1) (Fin 1) ℚ).transpose) *
        ((1 : Matrix (Fin 1) (Fin 1) ℚ) *
          (0 : Matrix (Fin 1) (Fin 1) ℚ).transpose).transpose = 1 :=
  c5_sampler_mean_cov 0 (fun _ => (5 : ℚ)) 1 1 1 1
    (by simp) (by simp [step3_matrix]) (by simp [step3_matrix])
    (by simp) (by simp) (by simp) (by simp)

/-- The `1 × 1` identity matrix is positive definite. -/
lemma one_isPosDef : IsPosDef (1 : Matrix (Fin 1) (Fin 1) ℚ) := by
  refine ⟨Matrix.transpose_one, fun x hx => ?_⟩
  have hx0 : x 0 ≠ 0 := by
    intro h
    exact hx (funext fun i => by fin_cases i; exact h)
  have hval : Matrix.dotProduct x ((1 : Matrix (Fin 1) (Fin 1) ℚ).mulVec x) =
      x 0 * x 0 := by
    simp [Matrix.one_mulVec, Matrix.dotProduct]
  rw [hval]
  exact mul_self_pos.mpr hx0

/-- Witness for C6 at `D = N = 1`, `Phi = [[0]]`, `Delta = I`. -/
theorem c6_step3_posdef_witness :
    IsPosDef (step3_matrix (0 : Matrix (Fin 1) (Fin 1) ℚ) 1) ∧
      ∀ bvec : Fin 1 → ℚ,
        ∃! w, (step3_matrix (0 : Matrix (Fin 1) (Fin 1) ℚ) 1).mulVec w = bvec :=
  c6_step3_posdef 0 1 one_isPosDef

end Sampler
